import Mathlib

/-!
Verification development for the magnet-link example of Boost.URL
(example/magnet/magnet.cpp).

The example code composes three layers:
  - a generic URI grammar and percent-decoding facility (the Boost.URL
    library itself, consumed as an opaque capability);
  - a generic lazy filtered/transformed view over query parameters
    (filtered_view.hpp);
  - magnet-specific predicates, transforms, the magnet_link_view facade
    and the magnet_link_rule grammar rule (magnet.cpp).

The third layer is translated from the source.  The first two layers are
not part of the source tree available here, so they are modelled from the
specification (sections 3, 4.1 and 6 of the spec), with URIs represented
as their five components and character sequences as lists of characters.
-/

namespace Magnet

/-- ASCII alphabetic character test used by the scheme grammar. -/
def isAlphaChar (c : Char) : Bool :=
  ('a' ≤ c && c ≤ 'z') || ('A' ≤ c && c ≤ 'Z')

/-- ASCII digit test; this is the digit_chars character set used by
is_exact_topic. -/
def digit_chars (c : Char) : Bool :=
  '0' ≤ c && c ≤ '9'

/-- ASCII hexadecimal digit test used by percent-encoded triplets. -/
def isHexChar (c : Char) : Bool :=
  digit_chars c || ('a' ≤ c && c ≤ 'f') || ('A' ≤ c && c ≤ 'F')

/-- Numeric value of a hexadecimal digit. -/
def hexVal (c : Char) : Nat :=
  if digit_chars c then c.toNat - 48
  else if 'a' ≤ c && c ≤ 'f' then c.toNat - 87
  else if 'A' ≤ c && c ≤ 'F' then c.toNat - 55
  else 0

/-- Unreserved characters of the generic URI grammar. -/
def isUnreservedChar (c : Char) : Bool :=
  isAlphaChar c || digit_chars c ||
  c == '-' || c == '.' || c == '_' || c == '~'

/-- Sub-delimiter characters of the generic URI grammar. -/
def isSubDelimChar (c : Char) : Bool :=
  c == '!' || c == '$' || c == '&' || c == Char.ofNat 39 ||
  c == '(' || c == ')' || c == '*' || c == '+' ||
  c == ',' || c == ';' || c == '='

/-- Characters allowed in a scheme after its leading alphabetic
character. -/
def isSchemeChar (c : Char) : Bool :=
  isAlphaChar c || digit_chars c || c == '+' || c == '-' || c == '.'

/-- Path characters of the generic URI grammar (pchar), excluding
percent-encoded triplets which are checked separately. -/
def isPChar (c : Char) : Bool :=
  isUnreservedChar c || isSubDelimChar c || c == ':' || c == '@'

/-- Characters allowed in the authority component, excluding
percent-encoded triplets. -/
def isAuthChar (c : Char) : Bool :=
  isUnreservedChar c || isSubDelimChar c || c == ':' || c == '@' ||
  c == '[' || c == ']'

/-- Characters allowed in query and fragment components, excluding
percent-encoded triplets. -/
def isQueryChar (c : Char) : Bool :=
  isPChar c || c == '/' || c == '?'

/-- Modelled from the spec: validity of a character sequence under a
given character set, where a percent sign must begin a valid
percent-encoded triplet (the generic URI grammar validates
percent-encoding at parse time). -/
def validPctText (allowed : Char → Bool) : List Char → Bool
  | [] => true
  | '%' :: a :: b :: rest => isHexChar a && isHexChar b && validPctText allowed rest
  | '%' :: _ => false
  | c :: rest => allowed c && validPctText allowed rest

/-- Modelled from the spec: the percent-decode facility.  Decodes each
valid percent-encoded triplet to its character; other characters pass
through unchanged.  On text validated by the URI grammar every percent
sign begins a valid triplet, so this total function agrees with the
fallible decode_into interface of the spec on all inputs produced by the
grammar. -/
def pct_decoded : List Char → List Char
  | [] => []
  | '%' :: a :: b :: rest =>
      if isHexChar a && isHexChar b then
        Char.ofNat (16 * hexVal a + hexVal b) :: pct_decoded rest
      else
        '%' :: pct_decoded (a :: b :: rest)
  | c :: rest => c :: pct_decoded rest

/-- Splits a character list at the first occurrence of a separator,
returning the part before it and, when the separator occurs, the part
after it. -/
def splitAtFirst (sep : Char) : List Char → List Char × Option (List Char)
  | [] => ([], none)
  | c :: rest =>
      if c == sep then ([], some rest)
      else
        let r := splitAtFirst sep rest
        (c :: r.1, r.2)

/-- Modelled from the spec: the view type produced by the generic URI
grammar, exposing scheme, authority, path, query and fragment as views. -/
structure url_view where
  scheme : List Char
  authority : Option (List Char)
  path : List Char
  query : Option (List Char)
  fragment : Option (List Char)
deriving DecidableEq, Repr

/-- Modelled from the spec: scheme well-formedness in the generic URI
grammar; one alphabetic character followed by scheme characters. -/
def validScheme (s : List Char) : Bool :=
  match s with
  | [] => false
  | c :: rest => isAlphaChar c && rest.all isSchemeChar

/-- Modelled from the spec: the hierarchical part of the generic URI
grammar, producing the authority (when present) and path components. -/
def parseHierPart (hp : List Char) : Option (Option (List Char) × List Char) :=
  match hp with
  | '/' :: '/' :: rest =>
      let r := splitAtFirst '/' rest
      match r.2 with
      | some p =>
          if validPctText isAuthChar r.1 && validPctText (fun c => isPChar c || c == '/') p then
            some (some r.1, '/' :: p)
          else none
      | none =>
          if validPctText isAuthChar r.1 then some (some r.1, []) else none
  | _ =>
      if validPctText (fun c => isPChar c || c == '/') hp then
        some (none, hp)
      else none

/-- Modelled from the spec: the generic URI grammar over a full input
span, with an optional fragment component.  Returns none exactly when the
input is not a syntactically valid URI. -/
def parse_uri_core (allowFragment : Bool) (s : List Char) : Option url_view :=
  let r := splitAtFirst ':' s
  match r.2 with
  | none => none
  | some rest =>
      if validScheme r.1 then
        let rf := splitAtFirst '#' rest
        match rf.2 with
        | some frag =>
            if allowFragment && validPctText isQueryChar frag then
              let rq := splitAtFirst '?' rf.1
              match parseHierPart rq.1 with
              | some ap =>
                  match rq.2 with
                  | some q =>
                      if validPctText isQueryChar q then
                        some ⟨r.1, ap.1, ap.2, some q, some frag⟩
                      else none
                  | none => some ⟨r.1, ap.1, ap.2, none, some frag⟩
              | none => none
            else none
        | none =>
            let rq := splitAtFirst '?' rf.1
            match parseHierPart rq.1 with
            | some ap =>
                match rq.2 with
                | some q =>
                    if validPctText isQueryChar q then
                      some ⟨r.1, ap.1, ap.2, some q, none⟩
                    else none
                | none => some ⟨r.1, ap.1, ap.2, none, none⟩
            | none => none
      else none

/-- Modelled from the spec: urls::parse_uri, the generic URI grammar over
a full string, fragment allowed. -/
def parse_uri (s : List Char) : Option url_view :=
  parse_uri_core true s

/-- Modelled from the spec: the absolute-URI grammar rule composed with
full-input consumption, as used by phase 1 of the magnet link rule; an
absolute URI has no fragment. -/
def parse_absolute_uri (s : List Char) : Option url_view :=
  parse_uri_core false s

/-- Modelled from the spec: one query parameter as produced by the
query-parameter enumerator, carrying a possibly percent-encoded key, a
possibly percent-encoded value, and the flag telling whether a value is
present. -/
structure query_param_view where
  key : List Char
  value : List Char
  has_value : Bool
deriving DecidableEq, Repr

/-- Modelled from the spec: the query-parameter enumerator over a query
string; parameters are separated by ampersands, each parameter is split
at its first equals sign, in original order, without deduplication. -/
def paramsOfQuery (q : List Char) : List query_param_view :=
  (q.splitOn '&').map fun seg =>
    let r := splitAtFirst '=' seg
    match r.2 with
    | some v => ⟨r.1, v, true⟩
    | none => ⟨r.1, [], false⟩

/-- Modelled from the spec: the params() accessor of a URI view; an
absent query yields the empty parameter sequence. -/
def url_view.params (u : url_view) : List query_param_view :=
  match u.query with
  | none => []
  | some q => paramsOfQuery q

/-- Modelled from the spec (section 4.1): the generic filtered and
transformed lazy view of filtered_view.hpp, parameterized by source
sequence, result element type, predicate and transform. -/
structure filtered_view (α β : Type) where
  src : List α
  pred : α → Bool
  tf : α → β

/-- Modelled from the spec (section 4.1): the begin cursor of a filtered
view; a cursor is the suffix of the source it still has to visit, and
begin skips from the first element of the source to the first element
satisfying the predicate. -/
def filtered_view.begin (v : filtered_view α β) : List α :=
  v.src.dropWhile (fun a => !v.pred a)

/-- Modelled from the spec (section 4.1): advancing a cursor moves past
the current element and then skips eagerly to the next element
satisfying the predicate. -/
def filtered_view.next (v : filtered_view α β) (c : List α) : List α :=
  (c.drop 1).dropWhile (fun a => !v.pred a)

/-- Dropping a prefix never lengthens a list. -/
theorem length_dropWhile_self_le (p : α → Bool) (l : List α) :
    (l.dropWhile p).length ≤ l.length := by
  induction l with
  | nil => simp [List.dropWhile]
  | cons a t ih =>
      simp only [List.dropWhile]
      split
      · exact Nat.le_succ_of_le ih
      · exact Nat.le_refl _

/-- Modelled from the spec (section 4.1): a full iteration pass starting
at a given cursor, dereferencing each position through the transform and
advancing until the end sentinel. -/
def filtered_view.collectFrom (v : filtered_view α β) : List α → List β
  | [] => []
  | a :: rest => v.tf a :: v.collectFrom ((a :: rest).drop 1 |>.dropWhile (fun x => !v.pred x))
termination_by c => c.length
decreasing_by
  simp only [List.drop_one, List.tail_cons]
  exact Nat.lt_succ_of_le (length_dropWhile_self_le _ _)

/-- Modelled from the spec (section 4.1): a full iteration pass of the
view, obtained by collecting from a freshly computed begin cursor. -/
def filtered_view.collect (v : filtered_view α β) : List β :=
  v.collectFrom v.begin

/-- Callable to identify a magnet exact topic; true when the decoded key
is "xt", or when the decoded key is longer than three characters, starts
with the three characters x, t and dot, and continues with digits only.
Translated from is_exact_topic in magnet.cpp; comparisons there run over
the decoded characters of the key. -/
def is_exact_topic (p : query_param_view) : Bool :=
  if pct_decoded p.key = ['x', 't'] then true
  else
    decide ((pct_decoded p.key).length > 3) &&
    (pct_decoded p.key).take 3 == ['x', 't', '.'] &&
    ((pct_decoded p.key).drop 3).all digit_chars

/-- Callable to identify a parameter with a given key and a URI as its
value; such values are percent-encoded twice, so the value is decoded
once into the scratch buffer before the nested parse.  Translated from
is_url_with_key in magnet.cpp; the key comparison is decoding-aware. -/
def is_url_with_key (k : List Char) (p : query_param_view) : Bool :=
  if pct_decoded p.key ≠ k then false
  else (parse_uri (pct_decoded p.value)).isSome

/-- Callable to convert a parameter value to a URI view; exact topic
values are singly encoded, so the still-encoded value is parsed
directly.  Translated from to_url in magnet.cpp; the unconditional
unwrap there is modelled by the optional result. -/
def to_url (p : query_param_view) : Option url_view :=
  parse_uri p.value

/-- Callable to convert a parameter value to its decoded text.
Translated from to_decoded_value in magnet.cpp. -/
def to_decoded_value (p : query_param_view) : List Char :=
  pct_decoded p.value

/-- Index of the last occurrence of the colon character in a character
list, or none when no colon occurs; this is the find_last_of step shared
by to_infohash and to_protocol. -/
def findLastColon : List Char → Option Nat
  | [] => none
  | c :: rest =>
      match findLastColon rest with
      | some i => some (i + 1)
      | none => if c == ':' then some 0 else none

/-- Callable to convert a parameter value to its infohash: parse the
value as a URI, take the path, and return the substring after the last
colon, or the whole path when no colon occurs.  Translated from
to_infohash in magnet.cpp; the unconditional unwrap is modelled by the
optional result. -/
def to_infohash (p : query_param_view) : Option (List Char) :=
  (parse_uri p.value).map fun topic =>
    let t := topic.path
    match findLastColon t with
    | some pos => t.drop (pos + 1)
    | none => t

/-- Callable to convert a parameter value to its protocol: parse the
value as a URI, take the path, and return the substring before the last
colon; when no colon occurs the substring from position zero with the
no-position length is the whole path.  Translated from to_protocol in
magnet.cpp. -/
def to_protocol (p : query_param_view) : Option (List Char) :=
  (parse_uri p.value).map fun topic =>
    let t := topic.path
    match findLastColon t with
    | some pos => t.take pos
    | none => t

/-- A magnet link reference: a view over one generically parsed URI.
Translated from magnet_link_view in magnet.cpp. -/
structure magnet_link_view where
  u_ : url_view
deriving DecidableEq, Repr

/-- A view of all exact topics in the magnet link.  Translated from
magnet_link_view::exact_topics, a filtered view over the params of the
underlying URI with the is_exact_topic predicate and the to_url
transform. -/
def magnet_link_view.exact_topics (m : magnet_link_view) :
    filtered_view query_param_view (Option url_view) :=
  ⟨m.u_.params, is_exact_topic, to_url⟩

/-- A view of all info hashes in the magnet link.  Translated from
magnet_link_view::info_hashes. -/
def magnet_link_view.info_hashes (m : magnet_link_view) :
    filtered_view query_param_view (Option (List Char)) :=
  ⟨m.u_.params, is_exact_topic, to_infohash⟩

/-- A view of all protocols in the magnet link.  Translated from
magnet_link_view::protocols. -/
def magnet_link_view.protocols (m : magnet_link_view) :
    filtered_view query_param_view (Option (List Char)) :=
  ⟨m.u_.params, is_exact_topic, to_protocol⟩

/-- A view of all parameters with a given key whose values are nested
URIs.  Translated from magnet_link_view::keys_view, the filtered view
with the is_url_with_key predicate and the to_decoded_value transform. -/
def magnet_link_view.keys_view (m : magnet_link_view) (k : List Char) :
    filtered_view query_param_view (List Char) :=
  ⟨m.u_.params, is_url_with_key k, to_decoded_value⟩

/-- A view of the address trackers of the magnet link.  Translated from
magnet_link_view::address_trackers, a keys view bound to the key tr. -/
def magnet_link_view.address_trackers (m : magnet_link_view) :
    filtered_view query_param_view (List Char) :=
  m.keys_view ['t', 'r']

/-- Lookup of an extension parameter: walk the parameters in order and
return the decoded value of the first whose decoded key is at least two
characters, begins with the two characters x and dot, continues with
exactly the requested name, and which has a value; otherwise none.
Translated from magnet_link_view::param in magnet.cpp. -/
def magnet_link_view.param (m : magnet_link_view) (key : List Char) :
    Option (List Char) :=
  match m.u_.params.find? (fun p =>
      decide (2 ≤ (pct_decoded p.key).length) &&
      (pct_decoded p.key).take 2 == ['x', '.'] &&
      (pct_decoded p.key).drop 2 == key &&
      p.has_value) with
  | some p => some (pct_decoded p.value)
  | none => none

/-- Phase 2 of the magnet link rule applied to an already parsed URI:
locate the first exact topic among the query parameters, reject when
there is none, then require every exact topic from that position to the
end to have a value that parses as a URI.  Translated from
magnet_link_rule_t::parse in magnet.cpp, lines 619 to 646. -/
def magnet_check (u : url_view) : Option magnet_link_view :=
  let ps := u.params
  let rest := ps.dropWhile (fun p => !is_exact_topic p)
  match rest with
  | [] => none
  | _ :: _ =>
      if rest.all (fun p =>
          if !is_exact_topic p then true
          else (parse_uri p.value).isSome) then
        some ⟨u⟩
      else none

/-- The magnet link grammar rule over an input span: phase 1 parses the
input with the generic absolute-URI grammar, phase 2 validates the exact
topics.  Translated from magnet_link_rule_t::parse in magnet.cpp. -/
def magnet_link_rule_parse (s : List Char) : Option magnet_link_view :=
  match parse_absolute_uri s with
  | none => none
  | some u => magnet_check u

/-- Return a parsed magnet link from a string, or failure.  Translated
from parse_magnet_link in magnet.cpp. -/
def parse_magnet_link (s : List Char) : Option magnet_link_view :=
  magnet_link_rule_parse s

/-! Shared lemmas about the view combinator and the helpers. -/

/-- Auxiliary: collecting from a cursor placed at the first match of a
list yields exactly the transformed matching elements of that list. -/
theorem filtered_view.collectFrom_dropWhile (v : filtered_view α β) (l : List α) :
    v.collectFrom (l.dropWhile (fun a => !v.pred a)) = (l.filter v.pred).map v.tf := by
  induction l with
  | nil => simp [List.dropWhile, filtered_view.collectFrom]
  | cons a t ih =>
      by_cases h : v.pred a = true
      · have hd : List.dropWhile (fun x => !v.pred x) (a :: t) = a :: t := by
          rw [List.dropWhile_cons]; simp [h]
        rw [hd, filtered_view.collectFrom.eq_def]
        simp only [List.drop_one, List.tail_cons]
        rw [ih, List.filter_cons, if_pos h, List.map_cons]
      · have h' : v.pred a = false := by simpa using h
        have hd : List.dropWhile (fun x => !v.pred x) (a :: t) =
            List.dropWhile (fun x => !v.pred x) t := by
          rw [List.dropWhile_cons]; simp [h']
        rw [hd, ih, List.filter_cons, if_neg (by simp [h'])]

/-- Iterator-protocol correctness of the filtered view: a full pass from
a freshly computed begin cursor produces the transform of every element
of the source satisfying the predicate, in source order. -/
theorem filtered_view.collect_eq (v : filtered_view α β) :
    v.collect = (v.src.filter v.pred).map v.tf :=
  v.collectFrom_dropWhile v.src

/-- Auxiliary: an element of a list satisfying the predicate survives
dropping the leading non-matching elements. -/
theorem mem_dropWhile_of_pred (p : α → Bool) (l : List α) (a : α)
    (ha : a ∈ l) (hp : p a = true) :
    a ∈ l.dropWhile (fun x => !p x) := by
  induction l with
  | nil => cases ha
  | cons x xs ih =>
      rw [List.dropWhile_cons]
      rcases List.mem_cons.mp ha with h | h
      · subst h; simp [hp]
      · split
        · exact ih h
        · exact List.mem_cons_of_mem _ h

/-- Auxiliary: dropping leading elements keeps a sublist, hence
membership in the suffix implies membership in the whole list. -/
theorem mem_of_mem_dropWhile (p : α → Bool) (l : List α) (a : α)
    (ha : a ∈ l.dropWhile p) : a ∈ l := by
  induction l with
  | nil => simp [List.dropWhile] at ha
  | cons x xs ih =>
      rw [List.dropWhile_cons] at ha
      split at ha
      · exact List.mem_cons_of_mem _ (ih ha)
      · exact ha

/-- Auxiliary: the head delivered by dropWhile falsifies the dropped
predicate. -/
theorem dropWhile_head_false (p : α → Bool) (l : List α) (a : α) (t : List α)
    (h : l.dropWhile p = a :: t) : p a = false := by
  induction l with
  | nil => simp [List.dropWhile] at h
  | cons x xs ih =>
      rw [List.dropWhile_cons] at h
      split at h
      · exact ih h
      · next hx =>
          injection h with h1 _
          subst h1
          simpa using hx

/-- The last-colon search fails exactly on colon-free text. -/
theorem findLastColon_eq_none_iff (t : List Char) :
    findLastColon t = none ↔ ':' ∉ t := by
  induction t with
  | nil => simp [findLastColon]
  | cons c rest ih =>
      simp only [findLastColon]
      cases h : findLastColon rest with
      | some i =>
          have hmem : ':' ∈ rest := by
            by_contra hc
            rw [← ih] at hc
            rw [h] at hc
            cases hc
          simp [List.mem_cons, hmem]
      | none =>
          have hnm : ':' ∉ rest := ih.mp h
          by_cases hc : c = ':'
          · simp [hc]
          · simp [hc, List.mem_cons, hnm, Ne.symm hc]

/-- The last-colon search returns a position where the text splits as
the part before the colon, the colon, and a colon-free part after it. -/
theorem findLastColon_spec (t : List Char) (i : Nat)
    (h : findLastColon t = some i) :
    t.take i ++ ':' :: t.drop (i + 1) = t ∧ ':' ∉ t.drop (i + 1) := by
  induction t generalizing i with
  | nil => simp [findLastColon] at h
  | cons c rest ih =>
      simp only [findLastColon] at h
      cases hr : findLastColon rest with
      | some j =>
          rw [hr] at h
          injection h with h1
          subst h1
          obtain ⟨e1, e2⟩ := ih j hr
          constructor
          · rw [List.take_succ_cons, List.drop_succ_cons]
            rw [List.cons_append, e1]
          · rw [List.drop_succ_cons]
            exact e2
      | none =>
          rw [hr] at h
          by_cases hc : c = ':'
          · rw [if_pos (by simp [hc])] at h
            injection h with h1
            subst h1
            refine ⟨?_, ?_⟩
            · simp [hc]
            · simpa using (findLastColon_eq_none_iff rest).mp hr
          · rw [if_neg (by simp [hc])] at h
            cases h

/-- Characterization of phase 2 of the magnet link rule: it returns a
view exactly when some query parameter is an exact topic and the value
of every exact topic parses as a URI, and the view wraps the given
URI. -/
theorem magnet_check_eq_some_iff (u : url_view) (m : magnet_link_view) :
    magnet_check u = some m ↔
      (m = ⟨u⟩ ∧ (∃ p ∈ u.params, is_exact_topic p = true) ∧
       ∀ p ∈ u.params, is_exact_topic p = true → (parse_uri p.value).isSome = true) := by
  cases hr : u.params.dropWhile (fun p => !is_exact_topic p) with
  | nil =>
      have hall : ∀ p ∈ u.params, ¬ is_exact_topic p = true := by
        intro p hp hpt
        have h2 := List.dropWhile_eq_nil_iff.mp hr p hp
        rw [hpt] at h2
        simp at h2
      simp only [magnet_check, hr]
      constructor
      · intro h; cases h
      · rintro ⟨_, ⟨p, hp, hpt⟩, _⟩
        exact absurd hpt (hall p hp)
  | cons q qs =>
      by_cases hb : (q :: qs).all (fun p =>
          if !is_exact_topic p then true else (parse_uri p.value).isSome) = true
      · simp only [magnet_check, hr, hb, if_true]
        constructor
        · intro h
          have hm : m = ⟨u⟩ := by
            injection h with h1
            exact h1.symm
          refine ⟨hm, ⟨q, ?_, ?_⟩, ?_⟩
          · exact mem_of_mem_dropWhile _ _ _ (hr ▸ List.mem_cons_self q qs)
          · have := dropWhile_head_false _ _ _ _ hr
            simpa using this
          · intro p hp hpt
            have hmem : p ∈ q :: qs := hr ▸ mem_dropWhile_of_pred _ _ _ hp hpt
            have := List.all_eq_true.mp hb p hmem
            simpa [hpt] using this
        · rintro ⟨hm, _, _⟩
          rw [hm]
      · simp only [magnet_check, hr, hb, if_false]
        constructor
        · intro h; cases h
        · rintro ⟨hm, _, hval⟩
          exfalso
          apply hb
          apply List.all_eq_true.mpr
          intro p hp
          by_cases hpt : is_exact_topic p = true
          · have hmem : p ∈ u.params := mem_of_mem_dropWhile _ _ _ (hr ▸ hp)
            simpa [hpt] using hval p hmem hpt
          · have : is_exact_topic p = false := by simpa using hpt
            simp [this]

/-! Claim theorems. -/

/-- C2: for every input whose query contains no parameter satisfying the
exact-topic predicate, the top-level parse function returns a rejection
and no magnet link view. -/
theorem missing_exact_topic_rejected (s : List Char) (u : url_view)
    (h1 : parse_absolute_uri s = some u)
    (h2 : ∀ p ∈ u.params, is_exact_topic p = false) :
    parse_magnet_link s = none := by
  unfold parse_magnet_link magnet_link_rule_parse
  rw [h1]
  cases hm : magnet_check u with
  | none => exact hm
  | some m =>
      obtain ⟨_, ⟨p, hp, hpt⟩, _⟩ := (magnet_check_eq_some_iff u m).mp hm
      rw [h2 p hp] at hpt
      cases hpt

/-- Witness for C2: the spec example magnet:?dn=foo is rejected. -/
theorem missing_exact_topic_rejected_witness :
    parse_magnet_link "magnet:?dn=foo".toList = none := by
  have hps : (⟨"magnet".toList, none, [], some "dn=foo".toList, none⟩ :
      url_view).params = [⟨"dn".toList, "foo".toList, true⟩] := by decide
  refine missing_exact_topic_rejected _
    ⟨"magnet".toList, none, [], some "dn=foo".toList, none⟩ (by decide) ?_
  intro p hp
  rw [hps] at hp
  have := List.mem_singleton.mp hp
  subst this
  decide

/-- C3: the exact-topic predicate holds exactly when the decoded key is
xt, or the decoded key is longer than three characters, starts with the
three decoded characters x, t and dot, and continues with ASCII digits
only; it accepts xt, xt.1 and xt.23, and rejects xt.a, xta, xt. with no
digits, the empty key, and the case variant XT. -/
theorem is_exact_topic_spec :
    (∀ p : query_param_view,
      is_exact_topic p = true ↔
        (pct_decoded p.key = ['x', 't'] ∨
         (3 < (pct_decoded p.key).length ∧
          (pct_decoded p.key).take 3 = ['x', 't', '.'] ∧
          ∀ c ∈ (pct_decoded p.key).drop 3, digit_chars c = true))) ∧
    is_exact_topic ⟨"xt".toList, [], false⟩ = true ∧
    is_exact_topic ⟨"xt.1".toList, [], false⟩ = true ∧
    is_exact_topic ⟨"xt.23".toList, [], false⟩ = true ∧
    is_exact_topic ⟨"xt.a".toList, [], false⟩ = false ∧
    is_exact_topic ⟨"xta".toList, [], false⟩ = false ∧
    is_exact_topic ⟨"xt.".toList, [], false⟩ = false ∧
    is_exact_topic ⟨[], [], false⟩ = false ∧
    is_exact_topic ⟨"XT".toList, [], false⟩ = false := by
  refine ⟨?_, by decide, by decide, by decide, by decide, by decide,
    by decide, by decide, by decide⟩
  intro p
  simp only [is_exact_topic]
  split
  · next h => simp [h]
  · next h =>
      simp [h, Bool.and_eq_true, decide_eq_true_eq, beq_iff_eq,
        List.all_eq_true, and_assoc]

/-- C10: when the path of an exact topic value contains no colon, the
protocol transform returns the entire path, which is also what the
infohash transform returns there. -/
theorem to_protocol_whole_path_when_no_colon (p : query_param_view)
    (u : url_view) (h1 : parse_uri p.value = some u) (h2 : ':' ∉ u.path) :
    to_protocol p = some u.path ∧ to_protocol p = to_infohash p := by
  have hn : findLastColon u.path = none :=
    (findLastColon_eq_none_iff u.path).mpr h2
  unfold to_protocol to_infohash
  rw [h1]
  simp [hn]

/-- Witness for C10: a topic value with colon-free path urn:abcdef. -/
theorem to_protocol_whole_path_when_no_colon_witness :
    to_protocol ⟨"xt".toList, "urn:abcdef".toList, true⟩ =
      some "abcdef".toList ∧
    to_protocol ⟨"xt".toList, "urn:abcdef".toList, true⟩ =
      to_infohash ⟨"xt".toList, "urn:abcdef".toList, true⟩ :=
  to_protocol_whole_path_when_no_colon _
    ⟨"urn".toList, none, "abcdef".toList, none, none⟩ (by decide) (by decide)

/-- C1: for every input accepted by the magnet link rule the exact
topics sequence is non-empty and every exact topic parameter has a value
that parses as a generic URI; and an exact topic parameter whose value
does not parse causes the input to be rejected. -/
theorem accepted_link_topics_valid :
    (∀ (s : List Char) (m : magnet_link_view),
       parse_magnet_link s = some m →
       m.exact_topics.collect ≠ [] ∧
       ∀ p ∈ m.u_.params, is_exact_topic p = true →
         (parse_uri p.value).isSome = true) ∧
    (∀ (s : List Char) (u : url_view) (p : query_param_view),
       parse_absolute_uri s = some u → p ∈ u.params →
       is_exact_topic p = true → (parse_uri p.value).isSome = false →
       parse_magnet_link s = none) := by
  constructor
  · intro s m h
    unfold parse_magnet_link magnet_link_rule_parse at h
    cases e : parse_absolute_uri s with
    | none => rw [e] at h; cases h
    | some u =>
        rw [e] at h
        obtain ⟨hm, ⟨p, hp, hpt⟩, hval⟩ := (magnet_check_eq_some_iff u m).mp h
        subst hm
        constructor
        · rw [magnet_link_view.exact_topics, filtered_view.collect_eq]
          intro hnil
          rw [List.map_eq_nil_iff] at hnil
          exact List.filter_eq_nil_iff.mp hnil p hp hpt
        · intro q hq hqt
          exact hval q hq hqt
  · intro s u p he hp hpt hfail
    unfold parse_magnet_link magnet_link_rule_parse
    rw [he]
    cases hm : magnet_check u with
    | none => exact hm
    | some m =>
        obtain ⟨_, _, hval⟩ := (magnet_check_eq_some_iff u m).mp hm
        rw [hval p hp hpt] at hfail
        cases hfail

/-- Witness for C1: an accepted link has non-empty exact topics, and a
link whose exact topic value foo is not a URI is rejected. -/
theorem accepted_link_topics_valid_witness :
    (⟨⟨"magnet".toList, none, [], some "xt=urn:btih:abc".toList, none⟩⟩ :
      magnet_link_view).exact_topics.collect ≠ [] ∧
    parse_magnet_link "magnet:?xt=foo".toList = none :=
  ⟨(accepted_link_topics_valid.1 "magnet:?xt=urn:btih:abc".toList
      ⟨⟨"magnet".toList, none, [], some "xt=urn:btih:abc".toList, none⟩⟩
      (by decide)).1,
   accepted_link_topics_valid.2 "magnet:?xt=foo".toList
      ⟨"magnet".toList, none, [], some "xt=foo".toList, none⟩
      ⟨"xt".toList, "foo".toList, true⟩
      (by decide) (by decide) (by decide) (by decide)⟩

/-- C4: when an exact topic value parses as a URI whose path has a last
colon at position i, the protocol transform returns the path up to i and
the infohash transform returns the path after position i, the infohash
carries no colon, and the two parts rejoined around the colon give back
the path; on the BitTorrent sample value the info hash and protocol
views yield the expected hash and btih. -/
theorem to_infohash_last_colon_split :
    (∀ (p : query_param_view) (u : url_view) (i : Nat),
       parse_uri p.value = some u → findLastColon u.path = some i →
       to_protocol p = some (u.path.take i) ∧
       to_infohash p = some (u.path.drop (i + 1)) ∧
       ':' ∉ u.path.drop (i + 1) ∧
       u.path.take i ++ ':' :: u.path.drop (i + 1) = u.path) ∧
    (⟨⟨"magnet".toList, none, [],
        some "xt=urn:btih:d2474e86c95b19b8bcfdb92bc12c9d44667cfa36".toList,
        none⟩⟩ : magnet_link_view).info_hashes.collect =
      [some "d2474e86c95b19b8bcfdb92bc12c9d44667cfa36".toList] ∧
    (⟨⟨"magnet".toList, none, [],
        some "xt=urn:btih:d2474e86c95b19b8bcfdb92bc12c9d44667cfa36".toList,
        none⟩⟩ : magnet_link_view).protocols.collect =
      [some "btih".toList] := by
  refine ⟨?_, ?_, ?_⟩
  · intro p u i h1 h2
    obtain ⟨e1, e2⟩ := findLastColon_spec u.path i h2
    unfold to_protocol to_infohash
    rw [h1]
    refine ⟨?_, ?_, e2, e1⟩ <;> simp [h2]
  · rw [magnet_link_view.info_hashes, filtered_view.collect_eq]
    decide
  · rw [magnet_link_view.protocols, filtered_view.collect_eq]
    decide

/-- Witness for C4: the split property at the sample URN value, whose
path btih:d2474... has its last colon at position 4. -/
theorem to_infohash_last_colon_split_witness :
    to_protocol ⟨"xt".toList,
        "urn:btih:d2474e86c95b19b8bcfdb92bc12c9d44667cfa36".toList, true⟩ =
      some ("btih:d2474e86c95b19b8bcfdb92bc12c9d44667cfa36".toList.take 4) ∧
    to_infohash ⟨"xt".toList,
        "urn:btih:d2474e86c95b19b8bcfdb92bc12c9d44667cfa36".toList, true⟩ =
      some ("btih:d2474e86c95b19b8bcfdb92bc12c9d44667cfa36".toList.drop 5) ∧
    ':' ∉ "btih:d2474e86c95b19b8bcfdb92bc12c9d44667cfa36".toList.drop 5 ∧
    "btih:d2474e86c95b19b8bcfdb92bc12c9d44667cfa36".toList.take 4 ++
        ':' :: "btih:d2474e86c95b19b8bcfdb92bc12c9d44667cfa36".toList.drop 5 =
      "btih:d2474e86c95b19b8bcfdb92bc12c9d44667cfa36".toList :=
  to_infohash_last_colon_split.1
    ⟨"xt".toList,
      "urn:btih:d2474e86c95b19b8bcfdb92bc12c9d44667cfa36".toList, true⟩
    ⟨"urn".toList, none,
      "btih:d2474e86c95b19b8bcfdb92bc12c9d44667cfa36".toList, none, none⟩
    4 (by decide) (by decide)

/-- C5: the address trackers view yields exactly the parameters whose
decoded key is tr and whose once-decoded value parses as a generic URI,
in original order; a parameter whose value fails the nested parse
falsifies the predicate and is skipped silently, as the nope tracker of
the sample link shows. -/
theorem address_trackers_valid_only :
    (∀ m : magnet_link_view,
       m.address_trackers.collect =
         (m.u_.params.filter (is_url_with_key ['t', 'r'])).map
           to_decoded_value) ∧
    (∀ (k : List Char) (p : query_param_view),
       is_url_with_key k p = true ↔
         (pct_decoded p.key = k ∧
          (parse_uri (pct_decoded p.value)).isSome = true)) ∧
    (⟨⟨"magnet".toList, none, [],
        some "xt=urn:btih:abc&tr=udp%3A%2F%2Fa&tr=nope&tr=udp%3A%2F%2Fb".toList,
        none⟩⟩ : magnet_link_view).address_trackers.collect =
      ["udp://a".toList, "udp://b".toList] ∧
    (⟨"tr".toList, "nope".toList, true⟩ : query_param_view) ∈
      (⟨⟨"magnet".toList, none, [],
          some "xt=urn:btih:abc&tr=udp%3A%2F%2Fa&tr=nope&tr=udp%3A%2F%2Fb".toList,
          none⟩⟩ : magnet_link_view).u_.params ∧
    is_url_with_key "tr".toList ⟨"tr".toList, "nope".toList, true⟩ = false := by
  refine ⟨?_, ?_, ?_, by decide, by decide⟩
  · intro m
    exact filtered_view.collect_eq _
  · intro k p
    unfold is_url_with_key
    split
    · next h => simp [h]
    · next h =>
        have hk : pct_decoded p.key = k := by
          by_contra hc
          exact h hc
        simp [hk]
  · rw [magnet_link_view.address_trackers, magnet_link_view.keys_view,
      filtered_view.collect_eq]
    decide

/-- C6: for every magnet link view produced by an accepted parse, every
element delivered by the exact topics, info hashes and protocols views
comes from a successful nested URI re-parse; the unconditional unwrap in
the transforms can never hit a failed parse once grammar validation has
passed. -/
theorem accepted_views_never_fail (s : List Char) (m : magnet_link_view)
    (h : parse_magnet_link s = some m) :
    (∀ x ∈ m.exact_topics.collect, x.isSome = true) ∧
    (∀ x ∈ m.info_hashes.collect, x.isSome = true) ∧
    (∀ x ∈ m.protocols.collect, x.isSome = true) := by
  have hval : ∀ p ∈ m.u_.params, is_exact_topic p = true →
      (parse_uri p.value).isSome = true := by
    unfold parse_magnet_link magnet_link_rule_parse at h
    cases e : parse_absolute_uri s with
    | none => rw [e] at h; cases h
    | some u =>
        rw [e] at h
        obtain ⟨hm, _, hval⟩ := (magnet_check_eq_some_iff u m).mp h
        subst hm
        exact hval
  refine ⟨?_, ?_, ?_⟩ <;>
  · intro x hx
    rw [filtered_view.collect_eq] at hx
    obtain ⟨p, hp, rfl⟩ := List.mem_map.mp hx
    obtain ⟨hpmem, hpt⟩ := List.mem_filter.mp hp
    first
    | exact hval p hpmem hpt
    | simpa [magnet_link_view.info_hashes, to_infohash, Option.isSome_map]
        using hval p hpmem hpt
    | simpa [magnet_link_view.protocols, to_protocol, Option.isSome_map]
        using hval p hpmem hpt

/-- Witness for C6: the nested parse of the one exact topic of an
accepted sample link succeeds. -/
theorem accepted_views_never_fail_witness :
    (to_url ⟨"xt".toList, "urn:btih:abc".toList, true⟩).isSome = true := by
  have h := (accepted_views_never_fail "magnet:?xt=urn:btih:abc".toList
    ⟨⟨"magnet".toList, none, [], some "xt=urn:btih:abc".toList, none⟩⟩
    (by decide)).1
  apply h
  rw [filtered_view.collect_eq]
  decide

/-- C7: acceptance by the magnet link rule never inspects the scheme:
phase 2 depends only on the query, the whole rule is phase 1 composed
with phase 2, and an input with scheme other and a valid exact topic is
accepted even though its scheme is not magnet. -/
theorem scheme_never_checked :
    (∀ u1 u2 : url_view, u1.query = u2.query →
       ((magnet_check u1).isSome = true ↔ (magnet_check u2).isSome = true)) ∧
    (∀ s : List Char,
       parse_magnet_link s = (parse_absolute_uri s).bind magnet_check) ∧
    (parse_magnet_link "other:?xt=urn:btih:abc".toList).isSome = true ∧
    (∀ m : magnet_link_view,
       parse_magnet_link "other:?xt=urn:btih:abc".toList = some m →
       m.u_.scheme ≠ "magnet".toList) := by
  have key : ∀ u1 u2 : url_view, u1.params = u2.params →
      (magnet_check u1).isSome = true → (magnet_check u2).isSome = true := by
    intro u1 u2 hp h1
    rw [Option.isSome_iff_exists] at h1 ⊢
    obtain ⟨m, hm⟩ := h1
    obtain ⟨_, hex, hval⟩ := (magnet_check_eq_some_iff u1 m).mp hm
    exact ⟨⟨u2⟩, (magnet_check_eq_some_iff u2 ⟨u2⟩).mpr
      ⟨rfl, hp ▸ hex, hp ▸ hval⟩⟩
  refine ⟨?_, ?_, by decide, ?_⟩
  · intro u1 u2 h
    have hp : u1.params = u2.params := by
      unfold url_view.params
      rw [h]
    exact ⟨key u1 u2 hp, key u2 u1 hp.symm⟩
  · intro s
    unfold parse_magnet_link magnet_link_rule_parse
    cases parse_absolute_uri s <;> rfl
  · intro m hm
    have he : parse_magnet_link "other:?xt=urn:btih:abc".toList =
        some ⟨⟨"other".toList, none, [],
          some "xt=urn:btih:abc".toList, none⟩⟩ := by decide
    rw [he] at hm
    injection hm with h1
    subst h1
    decide

/-- Witness for C7: the acceptance state of phase 2 is unchanged when
the scheme component magnet is replaced by other, the query staying
fixed. -/
theorem scheme_never_checked_witness :
    ((magnet_check ⟨"magnet".toList, none, [],
        some "xt=urn:btih:abc".toList, none⟩).isSome = true ↔
     (magnet_check ⟨"other".toList, none, [],
        some "xt=urn:btih:abc".toList, none⟩).isSome = true) ∧
    (⟨⟨"other".toList, none, [], some "xt=urn:btih:abc".toList, none⟩⟩ :
        magnet_link_view).u_.scheme ≠ "magnet".toList :=
  ⟨scheme_never_checked.1
      ⟨"magnet".toList, none, [], some "xt=urn:btih:abc".toList, none⟩
      ⟨"other".toList, none, [], some "xt=urn:btih:abc".toList, none⟩ rfl,
   scheme_never_checked.2.2.2
      ⟨⟨"other".toList, none, [], some "xt=urn:btih:abc".toList, none⟩⟩
      (by decide)⟩

/-- C8: the extension parameter lookup returns the decoded value of a
query parameter whose decoded key starts with the two characters x and
dot, continues with exactly the requested name, and which has a value;
when no parameter qualifies it returns absent; the parameter x.custom
with value value123 is found under the name custom while a bare key
custom is not. -/
theorem param_extension_lookup :
    (∀ (m : magnet_link_view) (key v : List Char),
       m.param key = some v →
       ∃ p ∈ m.u_.params,
         2 ≤ (pct_decoded p.key).length ∧
         (pct_decoded p.key).take 2 = ['x', '.'] ∧
         (pct_decoded p.key).drop 2 = key ∧
         p.has_value = true ∧
         v = pct_decoded p.value) ∧
    (∀ (m : magnet_link_view) (key : List Char),
       (∀ p ∈ m.u_.params,
         ¬(2 ≤ (pct_decoded p.key).length ∧
           (pct_decoded p.key).take 2 = ['x', '.'] ∧
           (pct_decoded p.key).drop 2 = key ∧
           p.has_value = true)) →
       m.param key = none) ∧
    (⟨⟨"magnet".toList, none, [],
        some "xt=urn:btih:abc&x.custom=value123".toList, none⟩⟩ :
      magnet_link_view).param "custom".toList = some "value123".toList ∧
    (⟨⟨"magnet".toList, none, [],
        some "xt=urn:btih:abc&custom=value123".toList, none⟩⟩ :
      magnet_link_view).param "custom".toList = none := by
  refine ⟨?_, ?_, by decide, by decide⟩
  · intro m key v h
    unfold magnet_link_view.param at h
    cases hf : m.u_.params.find? (fun p =>
        decide (2 ≤ (pct_decoded p.key).length) &&
        (pct_decoded p.key).take 2 == ['x', '.'] &&
        (pct_decoded p.key).drop 2 == key &&
        p.has_value) with
    | none => rw [hf] at h; cases h
    | some p =>
        rw [hf] at h
        injection h with h1
        have hpred := List.find?_some hf
        simp only [Bool.and_eq_true, decide_eq_true_eq, beq_iff_eq] at hpred
        exact ⟨p, List.mem_of_find?_eq_some hf,
          hpred.1.1.1, hpred.1.1.2, hpred.1.2, hpred.2, h1.symm⟩
  · intro m key hnone
    unfold magnet_link_view.param
    have hf : m.u_.params.find? (fun p =>
        decide (2 ≤ (pct_decoded p.key).length) &&
        (pct_decoded p.key).take 2 == ['x', '.'] &&
        (pct_decoded p.key).drop 2 == key &&
        p.has_value) = none := by
      rw [List.find?_eq_none]
      intro p hp hpred
      simp only [Bool.and_eq_true, decide_eq_true_eq, beq_iff_eq] at hpred
      exact hnone p hp ⟨hpred.1.1.1, hpred.1.1.2, hpred.1.2, hpred.2⟩
    rw [hf]

/-- Witness for C8: a link whose only parameters are an exact topic and
a bare key custom has no extension parameter named custom. -/
theorem param_extension_lookup_witness :
    (⟨⟨"magnet".toList, none, [],
        some "xt=urn:btih:abc&custom=value123".toList, none⟩⟩ :
      magnet_link_view).param "other".toList = none :=
  param_extension_lookup.2.1
    ⟨⟨"magnet".toList, none, [],
        some "xt=urn:btih:abc&custom=value123".toList, none⟩⟩
    "other".toList (by decide)

/-- C9: each accessor view is stateless across iteration passes: a full
pass, which recomputes its begin cursor from the first element of the
source sequence, always equals the order-preserving filter and transform
of the underlying parameter list, so any two iteration passes of the
same accessor yield element-for-element equal sequences. -/
theorem accessor_reiteration_stateless (m : magnet_link_view) :
    m.exact_topics.collect =
      (m.u_.params.filter is_exact_topic).map to_url ∧
    m.info_hashes.collect =
      (m.u_.params.filter is_exact_topic).map to_infohash ∧
    m.protocols.collect =
      (m.u_.params.filter is_exact_topic).map to_protocol ∧
    ∀ k : List Char, (m.keys_view k).collect =
      (m.u_.params.filter (is_url_with_key k)).map to_decoded_value :=
  ⟨filtered_view.collect_eq _, filtered_view.collect_eq _,
   filtered_view.collect_eq _, fun _ => filtered_view.collect_eq _⟩

end Magnet
